import Mathlib

/-!
Verification of `keras/engine/training_arrays.py`: batch generation and the
fit / evaluate / predict loop drivers over in-memory array data.

The source module is embedded shallowly:

* `make_batches`, `batch_shuffle` and `slice_arrays` live in sibling modules
  (`training_utils`, `generic_utils`) that are not part of the source tree
  here; they are modelled from the specification text and marked as such.
* Python lists become Lean `List`s; numpy index arrays become `List Nat`;
  metric values become `ℚ` (numeric-stability questions are explicitly
  implementation-defined per the design notes, so exact rationals stand in
  for floats).
* The opaque compute steps (`train_function`, `test_function`,
  `predict_function`) are parameters: functions from a step / batch index to
  the list of outputs the step returns.
* The observer-settable stop flags (`stop_training`, `stop_evaluating`,
  `stop_predicting`) are modelled by a predicate saying after which
  batch-end notification the observer sets the flag.
-/

namespace TrainingArrays

/-- Modelled from the spec: `make_batches` (imported from `training_utils`,
which is not in the source tree) returns the list of contiguous
`(batch_start, batch_end)` index ranges of width `batch_size` covering
`[0, num_samples)` — `ceil(num_samples / batch_size)` ranges in total, the
last one possibly shorter ("batch count derived by dividing a known total
sample count by batch size"; the ranges "partition `[0, num_samples)`"). -/
def make_batches (num_samples batch_size : Nat) : List (Nat × Nat) :=
  (List.range ((num_samples + batch_size - 1) / batch_size)).map
    (fun i => (i * batch_size, min num_samples ((i + 1) * batch_size)))

/-- Python slice `l[s:e]` (with `s ≤ e`) on a list. -/
def pySlice (l : List α) (s e : Nat) : List α :=
  (l.drop s).take (e - s)

/-- `np.arange num_samples`, the unshuffled index array of
`get_batch_generator`. -/
def arange (n : Nat) : List Nat := List.range n

/-- The index arrays `batch_ids = index_array[batch_start:batch_end]` of the
successive batches yielded by `get_batch_generator`. -/
def batch_id_lists (index_array : List Nat) (num_samples batch_size : Nat) :
    List (List Nat) :=
  (make_batches num_samples batch_size).map (fun b => pySlice index_array b.1 b.2)

theorem make_batches_length (n bs : Nat) :
    (make_batches n bs).length = (n + bs - 1) / bs := by
  simp [make_batches]

theorem make_batches_zero (bs : Nat) : make_batches 0 bs = [] := by
  unfold make_batches
  have h : (0 + bs - 1) / bs = 0 := by
    rcases Nat.eq_zero_or_pos bs with h | h
    · simp [h]
    · exact Nat.div_eq_of_lt (by omega)
  rw [h]
  rfl

theorem make_batches_cons (n bs : Nat) (hbs : 0 < bs) (hn : 0 < n) :
    make_batches n bs
      = (0, min n bs) :: (make_batches (n - bs) bs).map (fun b => (b.1 + bs, b.2 + bs)) := by
  have hcount : (n + bs - 1) / bs = (n - bs + bs - 1) / bs + 1 := by
    rcases Nat.le_total bs n with hle | hlt
    · have h1 : n + bs - 1 = (n - 1) + bs := by omega
      have h2 : n - bs + bs - 1 = n - 1 := by omega
      rw [h1, h2, Nat.add_div_right _ hbs]
    · have h1 : n + bs - 1 = (n - 1) + bs := by omega
      rw [h1, Nat.add_div_right _ hbs]
      have h2 : (n - 1) / bs = 0 := Nat.div_eq_of_lt (by omega)
      have h3 : (n - bs + bs - 1) / bs = 0 := Nat.div_eq_of_lt (by omega)
      rw [h2, h3]
  unfold make_batches
  rw [hcount, List.range_succ_eq_map, List.map_cons, List.map_map]
  congr 1
  · simp
  · rw [List.map_map]
    apply List.map_eq_map_iff.mpr
    intro i hi
    have hik : i < (n - bs + bs - 1) / bs := List.mem_range.mp hi
    have hblt : bs < n := by
      by_contra hc
      push_neg at hc
      have : n - bs = 0 := by omega
      rw [this] at hik
      have : (0 + bs - 1) / bs = 0 := by
        rcases Nat.eq_zero_or_pos bs with h | h
        · simp [h]
        · exact Nat.div_eq_of_lt (by omega)
      omega
    simp only [Function.comp, Nat.succ_mul, Nat.add_mul, Nat.one_mul]
    rw [Prod.mk.injEq]
    exact ⟨rfl, by omega⟩

theorem flatten_pySlice_make_batches (bs : Nat) (hbs : 0 < bs) :
    ∀ (n : Nat) (l : List α), l.length = n →
      ((make_batches n bs).map (fun b => pySlice l b.1 b.2)).flatten = l := by
  intro n
  induction n using Nat.strong_induction_on with
  | _ n ih =>
    intro l hl
    rcases Nat.eq_zero_or_pos n with h0 | hn
    · subst h0
      rw [make_batches_zero]
      simp only [List.map_nil, List.flatten_nil]
      exact (List.length_eq_zero.mp hl).symm
    · rw [make_batches_cons n bs hbs hn, List.map_cons, List.flatten_cons, List.map_map]
      have hhead : pySlice l 0 (min n bs) = l.take bs := by
        unfold pySlice
        rw [List.drop_zero]
        apply (List.take_eq_take).mpr
        omega
      have htail : ∀ b : Nat × Nat,
          pySlice l (b.1 + bs) (b.2 + bs) = pySlice (l.drop bs) b.1 b.2 := by
        intro b
        unfold pySlice
        rw [List.drop_drop]
        have h2 : b.2 + bs - (b.1 + bs) = b.2 - b.1 := by omega
        have h3 : b.1 + bs = bs + b.1 := Nat.add_comm b.1 bs
        rw [h2, h3]
      have hmap : (make_batches (n - bs) bs).map
            ((fun b : Nat × Nat => pySlice l b.1 b.2) ∘ fun b => (b.1 + bs, b.2 + bs))
          = (make_batches (n - bs) bs).map (fun b => pySlice (l.drop bs) b.1 b.2) := by
        apply List.map_eq_map_iff.mpr
        intro b _
        simp only [Function.comp]
        exact htail b
      rw [hmap, ih (n - bs) (by omega) (l.drop bs) (by rw [List.length_drop]; omega), hhead]
      exact List.take_append_drop bs l

/-- C1: for `0 < batch_size ≤ num_samples` the batch generator yields exactly
`ceil(num_samples / batch_size)` batches (the Nat formula
`(num_samples + batch_size - 1) / batch_size`), and the index lists underlying
those batches — the slices of the (unshuffled) index array `arange num_samples`
— concatenate to exactly `[0, 1, …, num_samples - 1]`, so every sample index
appears in exactly one yielded batch per call. -/
theorem batch_generator_yields_partition (num_samples batch_size : Nat)
    (hbs : 0 < batch_size) (hle : batch_size ≤ num_samples) :
    (batch_id_lists (arange num_samples) num_samples batch_size).length
        = (num_samples + batch_size - 1) / batch_size
      ∧ (batch_id_lists (arange num_samples) num_samples batch_size).flatten
        = List.range num_samples
      ∧ ∀ k, k < num_samples →
          ((batch_id_lists (arange num_samples) num_samples batch_size).map
            (List.count k)).sum = 1 := by
  have hflat : (batch_id_lists (arange num_samples) num_samples batch_size).flatten
      = List.range num_samples := by
    unfold batch_id_lists arange
    exact flatten_pySlice_make_batches batch_size hbs num_samples
      (List.range num_samples) (List.length_range num_samples)
  refine ⟨?_, hflat, ?_⟩
  · unfold batch_id_lists
    rw [List.length_map, make_batches_length]
  · intro k hk
    have hsum := List.count_flatten k
      (batch_id_lists (arange num_samples) num_samples batch_size)
    rw [hflat] at hsum
    rw [← hsum, List.count_eq_of_nodup (List.nodup_range num_samples)]
    simp [List.mem_range, hk]

/-- Witness for C1 at `num_samples = 5`, `batch_size = 2`. -/
theorem batch_generator_yields_partition_witness :
    (batch_id_lists (arange 5) 5 2).length = (5 + 2 - 1) / 2
      ∧ (batch_id_lists (arange 5) 5 2).flatten = List.range 5
      ∧ ∀ k, k < 5 → ((batch_id_lists (arange 5) 5 2).map (List.count k)).sum = 1 :=
  batch_generator_yields_partition 5 2 (by decide) (by decide)

theorem range_drop (a s k : Nat) :
    (List.range' a k).drop s = List.range' (a + s) (k - s) := by
  induction k generalizing a s with
  | zero => simp
  | succ k ih =>
    cases s with
    | zero => simp
    | succ s =>
      rw [List.range'_succ, List.drop_succ_cons, ih]
      congr 1 <;> omega

theorem range_take (a t k : Nat) :
    (List.range' a k).take t = List.range' a (min t k) := by
  induction k generalizing a t with
  | zero => simp
  | succ k ih =>
    cases t with
    | zero => simp
    | succ t =>
      rw [List.range'_succ, List.take_succ_cons, ih]
      have h : min (t + 1) (k + 1) = min t k + 1 := by omega
      rw [h, List.range'_succ]

theorem range_glue (a m k : Nat) :
    List.range' a m ++ List.range' (a + m) k = List.range' a (m + k) := by
  induction m generalizing a with
  | zero => simp
  | succ m ih =>
    rw [List.range'_succ, List.cons_append]
    have h : a + (m + 1) = (a + 1) + m := by omega
    rw [h, ih, ← List.range'_succ]
    congr 1
    omega

theorem pySlice_range (m s e : Nat) (hse : s ≤ e) (he : e ≤ m) :
    pySlice (List.range m) s e = List.range' s (e - s) := by
  unfold pySlice
  rw [List.range_eq_range', range_drop, range_take]
  congr 1 <;> omega

/-- Modelled from the spec: `batch_shuffle` (imported from `training_utils`,
which is not in the source tree) reorders whole batch-sized contiguous blocks
of the index array and leaves the trailing partial block in place, preserving
the order inside every block ("Block-shuffle permutes batch-sized chunks of
indices rather than individual indices"). The randomly drawn permutation of
the `len / batch_size` whole blocks is passed explicitly as `perm`. -/
def batch_shuffle (perm : List Nat) (index_array : List Nat) (batch_size : Nat) :
    List Nat :=
  (perm.map (fun i =>
      pySlice (index_array.take (index_array.length / batch_size * batch_size))
        (i * batch_size) ((i + 1) * batch_size))).flatten
    ++ index_array.drop (index_array.length / batch_size * batch_size)

theorem flatten_range_blocks (bs : Nat) :
    ∀ c : Nat, ((List.range c).map (fun i => List.range' (i * bs) bs)).flatten
      = List.range' 0 (c * bs) := by
  intro c
  induction c with
  | zero => simp
  | succ c ih =>
    rw [List.range_succ, List.map_append, List.flatten_append, ih]
    simp only [List.map_cons, List.map_nil, List.flatten_cons, List.flatten_nil,
      List.append_nil]
    have hg := range_glue 0 (c * bs) bs
    rw [Nat.zero_add] at hg
    rw [hg]
    congr 1
    rw [Nat.add_mul, Nat.one_mul]

/-- C9: with shuffle mode `"batch"`, the index order produced by
`get_batch_generator` is `batch_shuffle` applied to `arange num_samples`: it
equals the whole batch-sized contiguous blocks `[i*bs, (i+1)*bs)` of
`[0, num_samples)` laid out in the permuted block order (each block kept
contiguous and internally in ascending order, the trailing partial block left
at the end), and it is a permutation of `[0, num_samples)`. -/
theorem batch_shuffle_permutes_whole_blocks (n bs : Nat) (perm : List Nat)
    (hbs : 0 < bs) (hperm : perm.Perm (List.range (n / bs))) :
    batch_shuffle perm (arange n) bs
        = (perm.map (fun i => List.range' (i * bs) bs)).flatten
            ++ List.range' (n / bs * bs) (n % bs)
      ∧ (batch_shuffle perm (arange n) bs).Perm (List.range n) := by
  have hc : n / bs * bs ≤ n := Nat.div_mul_le_self n bs
  have hmod : n - n / bs * bs = n % bs := by
    have hdm : bs * (n / bs) + n % bs = n := Nat.div_add_mod n bs
    have hcomm : n / bs * bs = bs * (n / bs) := Nat.mul_comm _ _
    omega
  have htake : (List.range n).take (n / bs * bs) = List.range (n / bs * bs) := by
    rw [List.take_range]
    congr 1
    omega
  have hdrop : (List.range n).drop (n / bs * bs) = List.range' (n / bs * bs) (n % bs) := by
    rw [List.range_eq_range', range_drop, Nat.zero_add, hmod]
  have heq : batch_shuffle perm (arange n) bs
      = (perm.map (fun i => List.range' (i * bs) bs)).flatten
          ++ List.range' (n / bs * bs) (n % bs) := by
    unfold batch_shuffle arange
    rw [List.length_range, htake, hdrop]
    congr 1
    congr 1
    apply List.map_eq_map_iff.mpr
    intro i hi
    have hilt : i < n / bs := by
      have := hperm.mem_iff.mp hi
      exact List.mem_range.mp this
    have hle : (i + 1) * bs ≤ n / bs * bs := Nat.mul_le_mul_right bs (by omega)
    rw [pySlice_range (n / bs * bs) (i * bs) ((i + 1) * bs)
      (Nat.mul_le_mul_right bs (by omega)) hle]
    congr 1
    rw [Nat.add_mul, Nat.one_mul]
    omega
  refine ⟨heq, ?_⟩
  rw [heq]
  have hpermf : ((perm.map (fun i => List.range' (i * bs) bs)).flatten).Perm
      (((List.range (n / bs)).map (fun i => List.range' (i * bs) bs)).flatten) :=
    List.Perm.flatten (hperm.map _)
  have hglue : ((List.range (n / bs)).map (fun i => List.range' (i * bs) bs)).flatten
      ++ List.range' (n / bs * bs) (n % bs) = List.range n := by
    rw [flatten_range_blocks bs (n / bs)]
    have h : n / bs * bs = 0 + n / bs * bs := by omega
    nth_rewrite 2 [h]
    rw [range_glue, List.range_eq_range']
    congr 1
    omega
  calc ((perm.map (fun i => List.range' (i * bs) bs)).flatten
          ++ List.range' (n / bs * bs) (n % bs)).Perm
        (((List.range (n / bs)).map (fun i => List.range' (i * bs) bs)).flatten
          ++ List.range' (n / bs * bs) (n % bs)) := hpermf.append_right _
    _ = List.range n := hglue

/-- Witness for C9 at `num_samples = 7`, `batch_size = 2`,
block permutation `[2, 0, 1]`. -/
theorem batch_shuffle_permutes_whole_blocks_witness :
    batch_shuffle [2, 0, 1] (arange 7) 2
        = ([2, 0, 1].map (fun i => List.range' (i * 2) 2)).flatten
            ++ List.range' (7 / 2 * 2) (7 % 2)
      ∧ (batch_shuffle [2, 0, 1] (arange 7) 2).Perm (List.range 7) :=
  batch_shuffle_permutes_whole_blocks 7 2 [2, 0, 1] (by decide) (by decide)

/-- One entry of an input bundle `ins`: an array of per-sample rows that
supports index-array slicing, a container whose index-array slicing raises a
`TypeError` (e.g. an HDF5 dataset), or a scalar float — the trailing
training-phase flag. -/
inductive PyVal where
  | arr (rows : List ℚ)
  | badContainer (rows : List ℚ)
  | flt (x : ℚ)
deriving DecidableEq

/-- Index-array slicing `x[batch_ids]` of one bundle entry; a container that
does not support it raises a `TypeError`. -/
def sliceOne (ids : List Nat) : PyVal → Except String PyVal
  | .arr rows => .ok (.arr (ids.map (fun i => rows.getD i 0)))
  | .badContainer _ => .error "TypeError"
  | .flt _ => .error "TypeError"

/-- Modelled from the spec: `slice_arrays` (imported from `generic_utils`,
which is not in the source tree) slices every entry of the bundle by the given
index list — "slicing `ins` by this range yields a batch bundle of the same
arity" — propagating the first `TypeError`. -/
def slice_arrays (ids : List Nat) : List PyVal → Except String (List PyVal)
  | [] => .ok []
  | v :: rest =>
    match sliceOne ids v with
    | .error e => .error e
    | .ok w =>
      match slice_arrays ids rest with
      | .error e => .error e
      | .ok ws => .ok (w :: ws)

/-- The error message raised by `get_batch_generator` when slicing a batch
fails with a `TypeError`. -/
def hdf5Msg : String :=
  "TypeError while preparing batch. If using HDF5 input data, pass shuffle=\x22batch\x22."

/-- One loop iteration of `get_batch_generator`: slice the bundle by the
batch's index array, keeping a trailing scalar float (the training-phase
flag) out of the slicing and re-appending it unchanged. -/
def sliceBatchRaw (ins : List PyVal) (ids : List Nat) : Except String (List PyVal) :=
  match ins.getLast? with
  | some (.flt x) => (slice_arrays ids ins.dropLast).map (fun ws => ws ++ [PyVal.flt x])
  | _ => slice_arrays ids ins

/-- `sliceBatchRaw` with the generator's `try/except TypeError` wrapper: a
slicing failure is re-raised as the descriptive `hdf5Msg` error. -/
def sliceBatch (ins : List PyVal) (ids : List Nat) : Except String (List PyVal) :=
  match sliceBatchRaw ins ids with
  | .ok ws => .ok ws
  | .error _ => .error hdf5Msg

/-- The batch generator body of `get_batch_generator`, run to completion over
the given list of `(batch_start, batch_end)` ranges: the list of yielded batch
bundles, or the error that aborts the generator (no retry: the first failing
batch ends the sequence). -/
def gen_batches (ins : List PyVal) (index_array : List Nat) :
    List (Nat × Nat) → Except String (List (List PyVal))
  | [] => .ok []
  | b :: rest =>
    match sliceBatch ins (pySlice index_array b.1 b.2) with
    | .error e => .error e
    | .ok bi =>
      match gen_batches ins index_array rest with
      | .error e => .error e
      | .ok bs => .ok (bi :: bs)

/-- `get_batch_generator` without shuffling (the evaluate / predict path),
run to completion. -/
def get_batch_generator (ins : List PyVal) (num_samples batch_size : Nat) :
    Except String (List (List PyVal)) :=
  gen_batches ins (arange num_samples) (make_batches num_samples batch_size)

theorem slice_arrays_length (ids : List Nat) :
    ∀ (ins ws : List PyVal), slice_arrays ids ins = .ok ws → ws.length = ins.length := by
  intro ins
  induction ins with
  | nil =>
    intro ws h
    simp only [slice_arrays] at h
    cases h
    rfl
  | cons v rest ih =>
    intro ws h
    simp only [slice_arrays] at h
    cases hv : sliceOne ids v with
    | error e => rw [hv] at h; cases h
    | ok w =>
      rw [hv] at h
      cases hr : slice_arrays ids rest with
      | error e => rw [hr] at h; cases h
      | ok ws2 =>
        rw [hr] at h
        cases h
        simp [ih ws2 hr]

/-- C7: if slicing some batch's index array out of the input bundle fails with
a `TypeError`, the generator raises the descriptive `hdf5Msg` error — the
message that instructs the caller to pass `shuffle="batch"` — and yields no
batch list (no retry: the run's result is exactly that single error). -/
theorem batch_generator_typeerror_message (ins : List PyVal)
    (index_array : List Nat) (batches : List (Nat × Nat))
    (hfail : ∃ b ∈ batches, ∃ e,
      sliceBatchRaw ins (pySlice index_array b.1 b.2) = .error e) :
    gen_batches ins index_array batches = .error hdf5Msg
      ∧ hdf5Msg = "TypeError while preparing batch. If using HDF5 input data, pass shuffle=\x22batch\x22." := by
  refine ⟨?_, rfl⟩
  induction batches with
  | nil =>
    rcases hfail with ⟨b, hb, _⟩
    cases hb
  | cons b rest ih =>
    rcases hfail with ⟨b2, hb2, e, he⟩
    rcases List.mem_cons.mp hb2 with hb2 | hb2
    · subst hb2
      simp only [gen_batches, sliceBatch, he]
    · have hire : gen_batches ins index_array rest = .error hdf5Msg :=
        ih ⟨b2, hb2, e, he⟩
      simp only [gen_batches, sliceBatch]
      cases hraw : sliceBatchRaw ins (pySlice index_array b.1 b.2) with
      | error e2 => rfl
      | ok ws => rw [hire]

/-- Witness for C7: a bundle holding one HDF5-like container, three samples,
batch size two. -/
theorem batch_generator_typeerror_message_witness :
    gen_batches [PyVal.badContainer [1, 2, 3]] (arange 3) (make_batches 3 2)
        = .error hdf5Msg
      ∧ hdf5Msg = "TypeError while preparing batch. If using HDF5 input data, pass shuffle=\x22batch\x22." :=
  batch_generator_typeerror_message [PyVal.badContainer [1, 2, 3]] (arange 3)
    (make_batches 3 2) ⟨(0, 2), by decide, "TypeError", by rfl⟩

/-- C8: if the input bundle ends in a scalar float (the training-phase flag),
every batch bundle the generator yields keeps that flag unchanged as its last
element and has the same arity as the input bundle. -/
theorem batch_generator_keeps_training_flag (ins : List PyVal) (x : ℚ)
    (index_array : List Nat) (batches : List (Nat × Nat))
    (outs : List (List PyVal))
    (hlast : ins.getLast? = some (.flt x))
    (hrun : gen_batches ins index_array batches = .ok outs) :
    ∀ bi ∈ outs, bi.length = ins.length ∧ bi.getLast? = some (.flt x) := by
  induction batches generalizing outs with
  | nil =>
    simp only [gen_batches] at hrun
    cases hrun
    intro bi hbi
    cases hbi
  | cons b rest ih =>
    simp only [gen_batches] at hrun
    cases hb : sliceBatch ins (pySlice index_array b.1 b.2) with
    | error e => rw [hb] at hrun; cases hrun
    | ok bi0 =>
      rw [hb] at hrun
      cases hr : gen_batches ins index_array rest with
      | error e => rw [hr] at hrun; cases hrun
      | ok outs2 =>
        rw [hr] at hrun
        cases hrun
        intro bi hbi
        rcases List.mem_cons.mp hbi with hbi | hbi
        · subst hbi
          simp only [sliceBatch, sliceBatchRaw, hlast] at hb
          cases hws : slice_arrays (pySlice index_array b.1 b.2) ins.dropLast with
          | error e => rw [hws] at hb; cases hb
          | ok ws =>
            rw [hws] at hb
            simp only [Except.map] at hb
            cases hb
            have hlen := slice_arrays_length (pySlice index_array b.1 b.2)
              ins.dropLast ws hws
            have hne : ins ≠ [] := by
              intro hnil
              rw [hnil] at hlast
              cases hlast
            constructor
            · rw [List.length_append, hlen, List.length_dropLast]
              have : 0 < ins.length := List.length_pos.mpr hne
              simp
              omega
            · exact List.getLast?_concat ws
        · exact ih outs2 hr bi hbi

/-- Witness for C8: bundle `[arr [10, 20, 30], flt 1/2]`, three samples,
batch size two — both yielded bundles have arity 2 and end in `flt 1/2`. -/
theorem batch_generator_keeps_training_flag_witness :
    (([PyVal.arr [10, 20], PyVal.flt (1/2)] : List PyVal).length
        = ([PyVal.arr [10, 20, 30], PyVal.flt (1/2)] : List PyVal).length
      ∧ ([PyVal.arr [10, 20], PyVal.flt (1/2)] : List PyVal).getLast?
        = some (.flt (1/2)))
    ∧ (([PyVal.arr [30], PyVal.flt (1/2)] : List PyVal).length
        = ([PyVal.arr [10, 20, 30], PyVal.flt (1/2)] : List PyVal).length
      ∧ ([PyVal.arr [30], PyVal.flt (1/2)] : List PyVal).getLast?
        = some (.flt (1/2))) :=
  ⟨batch_generator_keeps_training_flag
      [PyVal.arr [10, 20, 30], PyVal.flt (1/2)] (1/2) (arange 3) (make_batches 3 2)
      [[PyVal.arr [10, 20], PyVal.flt (1/2)], [PyVal.arr [30], PyVal.flt (1/2)]]
      (by rfl) (by rfl) _ (List.mem_cons_self _ _),
    batch_generator_keeps_training_flag
      [PyVal.arr [10, 20, 30], PyVal.flt (1/2)] (1/2) (arange 3) (make_batches 3 2)
      [[PyVal.arr [10, 20], PyVal.flt (1/2)], [PyVal.arr [30], PyVal.flt (1/2)]]
      (by rfl) (by rfl) _ (List.mem_cons_of_mem _ (List.mem_cons_self _ _))⟩

/-- The per-step accumulation of `evaluate_loop`'s step-based branch
(`for i, batch_out in enumerate(batch_outs)`), starting at metric index `i`:
a stateful metric index takes the latest batch value (`outs[i] =
float(batch_out)`, the identity on exact rationals), any other index adds it
(`outs[i] += batch_out`). -/
def accum_steps (st : List Nat) : Nat → List ℚ → List ℚ → List ℚ
  | _, os, [] => os
  | _, [], _ => []
  | i, o :: os, b :: bs =>
    (if i ∈ st then b else o + b) :: accum_steps st (i + 1) os bs

/-- The per-batch accumulation of `evaluate_loop`'s sample-based branch:
a stateful metric index takes the latest batch value (`outs[i] = batch_out`),
any other index adds the sample-weighted value (`outs[i] += batch_out *
size`). -/
def accum_samples (st : List Nat) (size : Nat) : Nat → List ℚ → List ℚ → List ℚ
  | _, os, [] => os
  | _, [], _ => []
  | i, o :: os, b :: bs =>
    (if i ∈ st then b else o + b * (size : ℚ)) :: accum_samples st size (i + 1) os bs

/-- The final pass of `evaluate_loop` (`outs[i] /= steps` resp.
`outs[i] /= num_samples` for every non-stateful metric index). -/
def finalize (st : List Nat) (d : ℚ) : Nat → List ℚ → List ℚ
  | _, [] => []
  | i, o :: os => (if i ∈ st then o else o / d) :: finalize st d (i + 1) os

/-- The step-based loop of `evaluate_loop` (`for step in range(steps)`),
with `r` steps left, current step index `step` and accumulator `outs`:
`f step` is what `model.test_function(ins)` returns at that step, at step 0
the accumulator is seeded with one `0.` per output, and after each batch-end
notification the loop breaks if the observer set `stop_evaluating`
(`stop step = true`). -/
def eval_steps_go (f : Nat → List ℚ) (st : List Nat) (stop : Nat → Bool) :
    Nat → Nat → List ℚ → List ℚ
  | 0, _, outs => outs
  | r + 1, step, outs =>
    let b := f step
    let outs2 := accum_steps st 0 (if step = 0 then List.replicate b.length 0 else outs) b
    if stop step then outs2 else eval_steps_go f st stop r (step + 1) outs2

/-- `evaluate_loop` with `steps = S`: run the step loop, then divide every
non-stateful accumulator by the declared step count `S`. -/
def evaluate_loop_steps (f : Nat → List ℚ) (st : List Nat) (S : Nat)
    (stop : Nat → Bool) : List ℚ :=
  finalize st (S : ℚ) 0 (eval_steps_go f st stop S 0 [])

/-- The sample-based loop of `evaluate_loop` over the remaining batch sizes
(`size = get_batch_size(batch_ins)`, the number of index ids of the batch),
current batch index `bi` and accumulator `outs`; `f bi` is what
`model.test_function(batch_ins)` returns on batch `bi`. -/
def eval_samples_go (f : Nat → List ℚ) (st : List Nat) (stop : Nat → Bool) :
    List Nat → Nat → List ℚ → List ℚ
  | [], _, outs => outs
  | size :: rest, bi, outs =>
    let b := f bi
    let outs2 := accum_samples st size 0
      (if bi = 0 then List.replicate b.length 0 else outs) b
    if stop bi then outs2 else eval_samples_go f st stop rest (bi + 1) outs2

/-- `evaluate_loop` with `steps = None`: iterate the batches produced by
`get_batch_generator` (whose sizes are the widths of `make_batches`' ranges),
then divide every non-stateful accumulator by `num_samples`. -/
def evaluate_loop_samples (f : Nat → List ℚ) (st : List Nat)
    (num_samples batch_size : Nat) (stop : Nat → Bool) : List ℚ :=
  finalize st (num_samples : ℚ) 0
    (eval_samples_go f st stop
      ((make_batches num_samples batch_size).map (fun b => b.2 - b.1)) 0 [])

theorem accum_steps_length (st : List Nat) :
    ∀ (os bs : List ℚ) (j : Nat), os.length = bs.length →
      (accum_steps st j os bs).length = os.length := by
  intro os
  induction os with
  | nil =>
    intro bs j h
    cases bs with
    | nil => rfl
    | cons b bs => cases h
  | cons o os ih =>
    intro bs j h
    cases bs with
    | nil => cases h
    | cons b bs =>
      simp only [accum_steps, List.length_cons]
      rw [ih bs (j + 1) (by simpa using h)]

theorem accum_steps_getD (st : List Nat) :
    ∀ (os bs : List ℚ) (j i : Nat), os.length = bs.length → i < os.length →
      (accum_steps st j os bs).getD i 0
        = if (j + i) ∈ st then bs.getD i 0 else os.getD i 0 + bs.getD i 0 := by
  intro os
  induction os with
  | nil =>
    intro bs j i h hi
    cases hi
  | cons o os ih =>
    intro bs j i h hi
    cases bs with
    | nil => cases h
    | cons b bs =>
      cases i with
      | zero => simp [accum_steps]
      | succ i =>
        simp only [accum_steps, List.getD_cons_succ]
        rw [ih bs (j + 1) i (by simpa using h) (by simpa using hi)]
        have hj : j + 1 + i = j + (i + 1) := by omega
        rw [hj]

theorem accum_samples_length (st : List Nat) (size : Nat) :
    ∀ (os bs : List ℚ) (j : Nat), os.length = bs.length →
      (accum_samples st size j os bs).length = os.length := by
  intro os
  induction os with
  | nil =>
    intro bs j h
    cases bs with
    | nil => rfl
    | cons b bs => cases h
  | cons o os ih =>
    intro bs j h
    cases bs with
    | nil => cases h
    | cons b bs =>
      simp only [accum_samples, List.length_cons]
      rw [ih bs (j + 1) (by simpa using h)]

theorem accum_samples_getD (st : List Nat) (size : Nat) :
    ∀ (os bs : List ℚ) (j i : Nat), os.length = bs.length → i < os.length →
      (accum_samples st size j os bs).getD i 0
        = if (j + i) ∈ st then bs.getD i 0
          else os.getD i 0 + bs.getD i 0 * (size : ℚ) := by
  intro os
  induction os with
  | nil =>
    intro bs j i h hi
    cases hi
  | cons o os ih =>
    intro bs j i h hi
    cases bs with
    | nil => cases h
    | cons b bs =>
      cases i with
      | zero => simp [accum_samples]
      | succ i =>
        simp only [accum_samples, List.getD_cons_succ]
        rw [ih bs (j + 1) i (by simpa using h) (by simpa using hi)]
        have hj : j + 1 + i = j + (i + 1) := by omega
        rw [hj]

theorem finalize_length (st : List Nat) (d : ℚ) :
    ∀ (os : List ℚ) (j : Nat), (finalize st d j os).length = os.length := by
  intro os
  induction os with
  | nil => intro j; rfl
  | cons o os ih =>
    intro j
    simp only [finalize, List.length_cons]
    rw [ih (j + 1)]

theorem finalize_getD (st : List Nat) (d : ℚ) :
    ∀ (os : List ℚ) (j i : Nat), i < os.length →
      (finalize st d j os).getD i 0
        = if (j + i) ∈ st then os.getD i 0 else os.getD i 0 / d := by
  intro os
  induction os with
  | nil =>
    intro j i hi
    cases hi
  | cons o os ih =>
    intro j i hi
    cases i with
    | zero => simp [finalize]
    | succ i =>
      simp only [finalize, List.getD_cons_succ]
      rw [ih (j + 1) i (by simpa using hi)]
      have hj : j + 1 + i = j + (i + 1) := by omega
      rw [hj]

theorem getD_replicate_zero (n i : Nat) : (List.replicate n (0:ℚ)).getD i 0 = 0 := by
  rw [List.getD_eq_getElem?_getD, List.getElem?_replicate]
  split <;> rfl

theorem eval_steps_go_length (f : Nat → List ℚ) (st : List Nat) (stop : Nat → Bool)
    (m : Nat) (hm : ∀ t, (f t).length = m) :
    ∀ (r step : Nat) (outs : List ℚ), (outs.length = m ∨ (step = 0 ∧ 0 < r)) →
      (eval_steps_go f st stop r step outs).length = m := by
  intro r
  induction r with
  | zero =>
    intro step outs h
    rcases h with h | ⟨_, h⟩
    · exact h
    · omega
  | succ r ih =>
    intro step outs h
    simp only [eval_steps_go]
    have houts1 : (if step = 0 then List.replicate (f step).length (0:ℚ) else outs).length
        = m := by
      by_cases hs : step = 0
      · simp [hs, hm]
      · rcases h with h | ⟨h0, _⟩
        · simp [hs, h]
        · exact absurd h0 hs
    have houts2 : (accum_steps st 0
        (if step = 0 then List.replicate (f step).length (0:ℚ) else outs) (f step)).length
        = m := by
      rw [accum_steps_length st _ _ 0 (by rw [houts1, hm])]
      exact houts1
    cases hstop : stop step with
    | true => simpa [hstop] using houts2
    | false =>
      simp only [hstop, Bool.false_eq_true, if_false]
      exact ih (step + 1) _ (Or.inl houts2)

theorem eval_steps_go_nonstateful (f : Nat → List ℚ) (st : List Nat)
    (stop : Nat → Bool) (m i : Nat) (hm : ∀ t, (f t).length = m)
    (hstop : ∀ t, stop t = false) (hi : i ∉ st) (him : i < m) :
    ∀ (r step : Nat) (outs : List ℚ), 1 ≤ step → outs.length = m →
      (eval_steps_go f st stop r step outs).getD i 0
        = outs.getD i 0 + ∑ t ∈ Finset.range r, (f (step + t)).getD i 0 := by
  intro r
  induction r with
  | zero =>
    intro step outs hstep houts
    simp [eval_steps_go]
  | succ r ih =>
    intro step outs hstep houts
    simp only [eval_steps_go]
    have hs0 : ¬(step = 0) := by omega
    simp only [hs0, if_false, hstop step, Bool.false_eq_true]
    have houts2len : (accum_steps st 0 outs (f step)).length = m := by
      rw [accum_steps_length st _ _ 0 (by rw [houts, hm])]
      exact houts
    rw [ih (step + 1) _ (by omega) houts2len]
    rw [accum_steps_getD st outs (f step) 0 i (by rw [houts, hm]) (by omega)]
    simp only [Nat.zero_add]
    rw [if_neg hi]
    rw [Finset.sum_range_succ']
    have hc : ∀ t ∈ Finset.range r, (f (step + 1 + t)).getD i 0
        = (f (step + (t + 1))).getD i 0 := by
      intro t _
      have : step + 1 + t = step + (t + 1) := by omega
      rw [this]
    rw [Finset.sum_congr rfl hc, Nat.add_zero]
    ring

theorem eval_steps_go_stateful (f : Nat → List ℚ) (st : List Nat)
    (stop : Nat → Bool) (m i : Nat) (hm : ∀ t, (f t).length = m)
    (hstop : ∀ t, stop t = false) (hi : i ∈ st) (him : i < m) :
    ∀ (r step : Nat) (outs : List ℚ), 1 ≤ step → 1 ≤ r → outs.length = m →
      (eval_steps_go f st stop r step outs).getD i 0
        = (f (step + r - 1)).getD i 0 := by
  intro r
  induction r with
  | zero =>
    intro step outs _ hr _
    omega
  | succ r ih =>
    intro step outs hstep _ houts
    simp only [eval_steps_go]
    have hs0 : ¬(step = 0) := by omega
    simp only [hs0, if_false, hstop step, Bool.false_eq_true]
    have houts2len : (accum_steps st 0 outs (f step)).length = m := by
      rw [accum_steps_length st _ _ 0 (by rw [houts, hm])]
      exact houts
    cases r with
    | zero =>
      simp only [eval_steps_go]
      rw [accum_steps_getD st outs (f step) 0 i (by rw [houts, hm]) (by omega)]
      simp only [Nat.zero_add]
      rw [if_pos hi]
      congr 1
    | succ r =>
      rw [ih (step + 1) _ (by omega) (by omega) houts2len]
      congr 2
      omega

theorem eval_run_length (f : Nat → List ℚ) (st : List Nat) (stop : Nat → Bool)
    (m : Nat) (hm : ∀ t, (f t).length = m) (r : Nat) (hr : 0 < r) :
    (eval_steps_go f st stop r 0 []).length = m :=
  eval_steps_go_length f st stop m hm r 0 [] (Or.inr ⟨rfl, hr⟩)

theorem eval_run_getD_nonstateful (f : Nat → List ℚ) (st : List Nat)
    (stop : Nat → Bool) (m i : Nat) (hm : ∀ t, (f t).length = m)
    (hstop : ∀ t, stop t = false) (hi : i ∉ st) (him : i < m)
    (r : Nat) (hr : 0 < r) :
    (eval_steps_go f st stop r 0 []).getD i 0
      = ∑ t ∈ Finset.range r, (f t).getD i 0 := by
  cases r with
  | zero => omega
  | succ r =>
    have houts2len : (accum_steps st 0 (List.replicate (f 0).length (0:ℚ)) (f 0)).length
        = m := by
      rw [accum_steps_length st _ _ 0 (by simp)]
      simp [hm]
    have houts2getD : (accum_steps st 0 (List.replicate (f 0).length (0:ℚ)) (f 0)).getD i 0
        = (f 0).getD i 0 := by
      rw [accum_steps_getD st _ _ 0 i (by simp) (by rw [List.length_replicate, hm]; omega)]
      simp only [Nat.zero_add]
      rw [if_neg hi, getD_replicate_zero]
      ring
    have hstep : eval_steps_go f st stop (r + 1) 0 []
        = eval_steps_go f st stop r 1
            (accum_steps st 0 (List.replicate (f 0).length (0:ℚ)) (f 0)) := by
      simp [eval_steps_go, hstop 0]
    rw [hstep]
    rw [eval_steps_go_nonstateful f st stop m i hm hstop hi him r 1 _ (by omega) houts2len]
    rw [houts2getD, Finset.sum_range_succ']
    have hc : ∀ t ∈ Finset.range r, (f (1 + t)).getD i 0 = (f (t + 1)).getD i 0 := by
      intro t _
      rw [Nat.add_comm]
    rw [Finset.sum_congr rfl hc]
    ring

theorem eval_run_getD_stateful (f : Nat → List ℚ) (st : List Nat)
    (stop : Nat → Bool) (m i : Nat) (hm : ∀ t, (f t).length = m)
    (hstop : ∀ t, stop t = false) (hi : i ∈ st) (him : i < m)
    (r : Nat) (hr : 0 < r) :
    (eval_steps_go f st stop r 0 []).getD i 0 = (f (r - 1)).getD i 0 := by
  cases r with
  | zero => omega
  | succ r =>
    have houts2len : (accum_steps st 0 (List.replicate (f 0).length (0:ℚ)) (f 0)).length
        = m := by
      rw [accum_steps_length st _ _ 0 (by simp)]
      simp [hm]
    have houts2getD : (accum_steps st 0 (List.replicate (f 0).length (0:ℚ)) (f 0)).getD i 0
        = (f 0).getD i 0 := by
      rw [accum_steps_getD st _ _ 0 i (by simp) (by rw [List.length_replicate, hm]; omega)]
      simp only [Nat.zero_add]
      rw [if_pos hi]
    have hstep : eval_steps_go f st stop (r + 1) 0 []
        = eval_steps_go f st stop r 1
            (accum_steps st 0 (List.replicate (f 0).length (0:ℚ)) (f 0)) := by
      simp [eval_steps_go, hstop 0]
    rw [hstep]
    cases r with
    | zero =>
      simp only [eval_steps_go]
      rw [houts2getD]
    | succ r =>
      rw [eval_steps_go_stateful f st stop m i hm hstop hi him (r + 1) 1 _ (by omega)
        (by omega) houts2len]
      congr 2
      omega

theorem eval_steps_go_early_stop (f : Nat → List ℚ) (st : List Nat) (stop : Nat → Bool) :
    ∀ (q r step : Nat) (outs : List ℚ), q < r →
      (∀ j, j < q → stop (step + j) = false) → stop (step + q) = true →
      eval_steps_go f st stop r step outs
        = eval_steps_go f st (fun _ => false) (q + 1) step outs := by
  intro q
  induction q with
  | zero =>
    intro r step outs hqr hfalse htrue
    cases r with
    | zero => omega
    | succ r =>
      rw [Nat.add_zero] at htrue
      simp [eval_steps_go, htrue]
  | succ q ih =>
    intro r step outs hqr hfalse htrue
    cases r with
    | zero => omega
    | succ r =>
      have hstep0 : stop step = false := by
        have h := hfalse 0 (by omega)
        rwa [Nat.add_zero] at h
      simp only [eval_steps_go, hstep0, Bool.false_eq_true, if_false]
      refine ih r (step + 1) _ (by omega) ?_ ?_
      · intro j hj
        have h := hfalse (j + 1) (by omega)
        rwa [show step + (j + 1) = step + 1 + j from by omega] at h
      · rwa [show step + (q + 1) = step + 1 + q from by omega] at htrue

/-- C3: a step-based evaluate run (`steps = S > 0`) that is never stopped
early returns, for every non-stateful metric index, the plain sum of the
per-step outputs divided by `S`, and for every stateful metric index the last
step's output unmodified. -/
theorem evaluate_loop_step_based (f : Nat → List ℚ) (st : List Nat) (S m : Nat)
    (stop : Nat → Bool) (hS : 0 < S) (hm : ∀ t, (f t).length = m)
    (hstop : ∀ t, stop t = false) :
    (evaluate_loop_steps f st S stop).length = m
      ∧ (∀ i, i < m → i ∉ st →
          (evaluate_loop_steps f st S stop).getD i 0
            = (∑ t ∈ Finset.range S, (f t).getD i 0) / (S : ℚ))
      ∧ (∀ i, i < m → i ∈ st →
          (evaluate_loop_steps f st S stop).getD i 0 = (f (S - 1)).getD i 0) := by
  have hrunlen := eval_run_length f st stop m hm S hS
  refine ⟨?_, ?_, ?_⟩
  · unfold evaluate_loop_steps
    rw [finalize_length, hrunlen]
  · intro i him hi
    unfold evaluate_loop_steps
    rw [finalize_getD st _ _ 0 i (by rw [hrunlen]; omega)]
    simp only [Nat.zero_add]
    rw [if_neg hi, eval_run_getD_nonstateful f st stop m i hm hstop hi him S hS]
  · intro i him hi
    unfold evaluate_loop_steps
    rw [finalize_getD st _ _ 0 i (by rw [hrunlen]; omega)]
    simp only [Nat.zero_add]
    rw [if_pos hi, eval_run_getD_stateful f st stop m i hm hstop hi him S hS]

/-- Witness for C3: 4 steps, each step returning `[5, 5]`, metric index 1
stateful — the non-stateful metric averages to `5`, the stateful one keeps
the last value `5`. -/
theorem evaluate_loop_step_based_witness :
    ((evaluate_loop_steps (fun _ => [5, 5]) [1] 4 (fun _ => false)).length = 2
      ∧ (∀ i, i < 2 → i ∉ [1] →
          (evaluate_loop_steps (fun _ => [5, 5]) [1] 4 (fun _ => false)).getD i 0
            = (∑ t ∈ Finset.range 4, ((fun _ => ([5, 5] : List ℚ)) t).getD i 0) / ((4 : Nat) : ℚ))
      ∧ (∀ i, i < 2 → i ∈ [1] →
          (evaluate_loop_steps (fun _ => [5, 5]) [1] 4 (fun _ => false)).getD i 0
            = ((fun _ => ([5, 5] : List ℚ)) (4 - 1)).getD i 0))
      ∧ evaluate_loop_steps (fun _ => [5, 5]) [1] 4 (fun _ => false) = [5, 5] :=
  ⟨evaluate_loop_step_based (fun _ => [5, 5]) [1] 4 2 (fun _ => false) (by decide)
    (fun _ => rfl) (fun _ => rfl), by
      norm_num [evaluate_loop_steps, eval_steps_go, accum_steps, finalize]⟩

/-- C10: if the observer stops a step-based evaluate run (`steps = S`) at the
end of step `k - 1` — so only `k < S` steps execute — every non-stateful
metric is still divided by the declared `S`, not by `k`: the returned value is
the partial sum over the `k` executed steps divided by `S`. -/
theorem evaluate_loop_early_stop_divides_by_declared_steps (f : Nat → List ℚ)
    (st : List Nat) (S m : Nat) (stop : Nat → Bool) (k : Nat)
    (hm : ∀ t, (f t).length = m) (hk : 0 < k) (hkS : k < S)
    (hstop1 : ∀ t, t < k - 1 → stop t = false) (hstop2 : stop (k - 1) = true) :
    ∀ i, i < m → i ∉ st →
      (evaluate_loop_steps f st S stop).getD i 0
        = (∑ t ∈ Finset.range k, (f t).getD i 0) / (S : ℚ) := by
  intro i him hi
  have hrw : eval_steps_go f st stop S 0 []
      = eval_steps_go f st (fun _ => false) k 0 [] := by
    have h := eval_steps_go_early_stop f st stop (k - 1) S 0 [] (by omega)
      (fun j hj => by rw [Nat.zero_add]; exact hstop1 j hj)
      (by rw [Nat.zero_add]; exact hstop2)
    rw [show k - 1 + 1 = k from by omega] at h
    exact h
  unfold evaluate_loop_steps
  rw [hrw]
  have hlen := eval_run_length f st (fun _ => false) m hm k hk
  rw [finalize_getD st _ _ 0 i (by rw [hlen]; omega)]
  simp only [Nat.zero_add]
  rw [if_neg hi,
    eval_run_getD_nonstateful f st (fun _ => false) m i hm (fun _ => rfl) hi him k hk]

/-- Witness for C10: `S = 4` declared steps, stop flag set at the end of step
0, one metric returning `5` each step — the result is `5 / 4`, not `5`. -/
theorem evaluate_loop_early_stop_divides_by_declared_steps_witness :
    (∀ i, i < 1 → i ∉ ([] : List Nat) →
      (evaluate_loop_steps (fun _ => [5]) [] 4 (fun t => decide (t = 0))).getD i 0
        = (∑ t ∈ Finset.range 1, ((fun _ => ([5] : List ℚ)) t).getD i 0) / ((4 : Nat) : ℚ))
      ∧ evaluate_loop_steps (fun _ => [5]) [] 4 (fun t => decide (t = 0)) = [5 / 4] :=
  ⟨evaluate_loop_early_stop_divides_by_declared_steps (fun _ => [5]) [] 4 1
    (fun t => decide (t = 0)) 1 (fun _ => rfl) (by decide) (by decide)
    (fun t ht => by omega) (by decide), by
      norm_num [evaluate_loop_steps, eval_steps_go, accum_steps, finalize]⟩

theorem eval_samples_go_length (f : Nat → List ℚ) (st : List Nat) (stop : Nat → Bool)
    (m : Nat) (hm : ∀ t, (f t).length = m) :
    ∀ (sizes : List Nat) (bi : Nat) (outs : List ℚ),
      (outs.length = m ∨ (bi = 0 ∧ sizes ≠ [])) →
      (eval_samples_go f st stop sizes bi outs).length = m := by
  intro sizes
  induction sizes with
  | nil =>
    intro bi outs h
    rcases h with h | ⟨_, h⟩
    · exact h
    · exact absurd rfl h
  | cons size rest ih =>
    intro bi outs h
    simp only [eval_samples_go]
    have houts1 : (if bi = 0 then List.replicate (f bi).length (0:ℚ) else outs).length
        = m := by
      by_cases hs : bi = 0
      · simp [hs, hm]
      · rcases h with h | ⟨h0, _⟩
        · simp [hs, h]
        · exact absurd h0 hs
    have houts2 : (accum_samples st size 0
        (if bi = 0 then List.replicate (f bi).length (0:ℚ) else outs) (f bi)).length
        = m := by
      rw [accum_samples_length st size _ _ 0 (by rw [houts1, hm])]
      exact houts1
    cases hstop : stop bi with
    | true => simpa [hstop] using houts2
    | false =>
      simp only [hstop, Bool.false_eq_true, if_false]
      exact ih (bi + 1) _ (Or.inl houts2)

theorem eval_samples_go_nonstateful (f : Nat → List ℚ) (st : List Nat)
    (stop : Nat → Bool) (m i : Nat) (hm : ∀ t, (f t).length = m)
    (hstop : ∀ t, stop t = false) (hi : i ∉ st) (him : i < m) :
    ∀ (sizes : List Nat) (bi : Nat) (outs : List ℚ), 1 ≤ bi → outs.length = m →
      (eval_samples_go f st stop sizes bi outs).getD i 0
        = outs.getD i 0 + ∑ k ∈ Finset.range sizes.length,
            (f (bi + k)).getD i 0 * ((sizes.getD k 0 : Nat) : ℚ) := by
  intro sizes
  induction sizes with
  | nil =>
    intro bi outs hbi houts
    simp [eval_samples_go]
  | cons size rest ih =>
    intro bi outs hbi houts
    simp only [eval_samples_go]
    have hs0 : ¬(bi = 0) := by omega
    simp only [hs0, if_false, hstop bi, Bool.false_eq_true]
    have houts2len : (accum_samples st size 0 outs (f bi)).length = m := by
      rw [accum_samples_length st size _ _ 0 (by rw [houts, hm])]
      exact houts
    rw [ih (bi + 1) _ (by omega) houts2len]
    rw [accum_samples_getD st size outs (f bi) 0 i (by rw [houts, hm]) (by omega)]
    simp only [Nat.zero_add]
    rw [if_neg hi]
    rw [List.length_cons, Finset.sum_range_succ']
    have hc : ∀ k ∈ Finset.range rest.length,
        (f (bi + 1 + k)).getD i 0 * ((rest.getD k 0 : Nat) : ℚ)
          = (f (bi + (k + 1))).getD i 0 * (((size :: rest).getD (k + 1) 0 : Nat) : ℚ) := by
      intro k _
      rw [show bi + 1 + k = bi + (k + 1) from by omega, List.getD_cons_succ]
    rw [Finset.sum_congr rfl hc, Nat.add_zero, List.getD_cons_zero]
    ring

theorem eval_samples_go_stateful (f : Nat → List ℚ) (st : List Nat)
    (stop : Nat → Bool) (m i : Nat) (hm : ∀ t, (f t).length = m)
    (hstop : ∀ t, stop t = false) (hi : i ∈ st) (him : i < m) :
    ∀ (sizes : List Nat) (bi : Nat) (outs : List ℚ), 1 ≤ bi → sizes ≠ [] →
      outs.length = m →
      (eval_samples_go f st stop sizes bi outs).getD i 0
        = (f (bi + sizes.length - 1)).getD i 0 := by
  intro sizes
  induction sizes with
  | nil =>
    intro bi outs _ hne _
    exact absurd rfl hne
  | cons size rest ih =>
    intro bi outs hbi _ houts
    simp only [eval_samples_go]
    have hs0 : ¬(bi = 0) := by omega
    simp only [hs0, if_false, hstop bi, Bool.false_eq_true]
    have houts2len : (accum_samples st size 0 outs (f bi)).length = m := by
      rw [accum_samples_length st size _ _ 0 (by rw [houts, hm])]
      exact houts
    cases rest with
    | nil =>
      simp only [eval_samples_go]
      rw [accum_samples_getD st size outs (f bi) 0 i (by rw [houts, hm]) (by omega)]
      simp only [Nat.zero_add]
      rw [if_pos hi]
      congr 1
    | cons size2 rest2 =>
      rw [ih (bi + 1) _ (by omega) (by simp) houts2len]
      congr 2
      simp only [List.length_cons]
      omega

theorem eval_samples_run_length (f : Nat → List ℚ) (st : List Nat)
    (stop : Nat → Bool) (m : Nat) (hm : ∀ t, (f t).length = m)
    (sizes : List Nat) (hne : sizes ≠ []) :
    (eval_samples_go f st stop sizes 0 []).length = m :=
  eval_samples_go_length f st stop m hm sizes 0 [] (Or.inr ⟨rfl, hne⟩)

theorem eval_samples_run_getD_nonstateful (f : Nat → List ℚ) (st : List Nat)
    (stop : Nat → Bool) (m i : Nat) (hm : ∀ t, (f t).length = m)
    (hstop : ∀ t, stop t = false) (hi : i ∉ st) (him : i < m)
    (sizes : List Nat) (hne : sizes ≠ []) :
    (eval_samples_go f st stop sizes 0 []).getD i 0
      = ∑ k ∈ Finset.range sizes.length,
          (f k).getD i 0 * ((sizes.getD k 0 : Nat) : ℚ) := by
  cases sizes with
  | nil => exact absurd rfl hne
  | cons size rest =>
    have houts2len : (accum_samples st size 0 (List.replicate (f 0).length (0:ℚ))
        (f 0)).length = m := by
      rw [accum_samples_length st size _ _ 0 (by simp)]
      simp [hm]
    have houts2getD : (accum_samples st size 0 (List.replicate (f 0).length (0:ℚ))
        (f 0)).getD i 0 = (f 0).getD i 0 * ((size : Nat) : ℚ) := by
      rw [accum_samples_getD st size _ _ 0 i (by simp)
        (by rw [List.length_replicate, hm]; omega)]
      simp only [Nat.zero_add]
      rw [if_neg hi, getD_replicate_zero]
      ring
    have hstep : eval_samples_go f st stop (size :: rest) 0 []
        = eval_samples_go f st stop rest 1
            (accum_samples st size 0 (List.replicate (f 0).length (0:ℚ)) (f 0)) := by
      simp [eval_samples_go, hstop 0]
    rw [hstep]
    rw [eval_samples_go_nonstateful f st stop m i hm hstop hi him rest 1 _ (by omega)
      houts2len]
    rw [houts2getD, List.length_cons, Finset.sum_range_succ']
    have hc : ∀ k ∈ Finset.range rest.length,
        (f (1 + k)).getD i 0 * ((rest.getD k 0 : Nat) : ℚ)
          = (f (k + 1)).getD i 0 * (((size :: rest).getD (k + 1) 0 : Nat) : ℚ) := by
      intro k _
      rw [Nat.add_comm 1 k, List.getD_cons_succ]
    rw [Finset.sum_congr rfl hc, List.getD_cons_zero]
    ring

theorem eval_samples_run_getD_stateful (f : Nat → List ℚ) (st : List Nat)
    (stop : Nat → Bool) (m i : Nat) (hm : ∀ t, (f t).length = m)
    (hstop : ∀ t, stop t = false) (hi : i ∈ st) (him : i < m)
    (sizes : List Nat) (hne : sizes ≠ []) :
    (eval_samples_go f st stop sizes 0 []).getD i 0
      = (f (sizes.length - 1)).getD i 0 := by
  cases sizes with
  | nil => exact absurd rfl hne
  | cons size rest =>
    have houts2len : (accum_samples st size 0 (List.replicate (f 0).length (0:ℚ))
        (f 0)).length = m := by
      rw [accum_samples_length st size _ _ 0 (by simp)]
      simp [hm]
    have houts2getD : (accum_samples st size 0 (List.replicate (f 0).length (0:ℚ))
        (f 0)).getD i 0 = (f 0).getD i 0 := by
      rw [accum_samples_getD st size _ _ 0 i (by simp)
        (by rw [List.length_replicate, hm]; omega)]
      simp only [Nat.zero_add]
      rw [if_pos hi]
    have hstep : eval_samples_go f st stop (size :: rest) 0 []
        = eval_samples_go f st stop rest 1
            (accum_samples st size 0 (List.replicate (f 0).length (0:ℚ)) (f 0)) := by
      simp [eval_samples_go, hstop 0]
    rw [hstep]
    cases rest with
    | nil =>
      simp only [eval_samples_go]
      rw [houts2getD]
      simp
    | cons size2 rest2 =>
      rw [eval_samples_go_stateful f st stop m i hm hstop hi him (size2 :: rest2) 1
        _ (by omega) (by simp) houts2len]
      congr 2
      simp only [List.length_cons]
      omega

/-- C2: a sample-based evaluate run (`steps = None`) that is never stopped
early returns, for every non-stateful metric index, the sum over all batches
of the batch's metric output times the batch's sample count, divided by
`num_samples`, and for every stateful metric index the last batch's output
unweighted. The batch sample counts are the widths of `make_batches`' ranges
(`get_batch_size` of each yielded batch). -/
theorem evaluate_loop_sample_based (f : Nat → List ℚ) (st : List Nat)
    (num_samples batch_size m : Nat) (stop : Nat → Bool)
    (hbs : 0 < batch_size) (hn : 0 < num_samples)
    (hm : ∀ t, (f t).length = m) (hstop : ∀ t, stop t = false) :
    (evaluate_loop_samples f st num_samples batch_size stop).length = m
      ∧ (∀ i, i < m → i ∉ st →
          (evaluate_loop_samples f st num_samples batch_size stop).getD i 0
            = (∑ j ∈ Finset.range ((num_samples + batch_size - 1) / batch_size),
                (f j).getD i 0
                  * ((((make_batches num_samples batch_size).map
                      (fun b => b.2 - b.1)).getD j 0 : Nat) : ℚ))
              / ((num_samples : Nat) : ℚ))
      ∧ (∀ i, i < m → i ∈ st →
          (evaluate_loop_samples f st num_samples batch_size stop).getD i 0
            = (f ((num_samples + batch_size - 1) / batch_size - 1)).getD i 0) := by
  have hlen : ((make_batches num_samples batch_size).map (fun b => b.2 - b.1)).length
      = (num_samples + batch_size - 1) / batch_size := by
    rw [List.length_map, make_batches_length]
  have hBpos : 0 < (num_samples + batch_size - 1) / batch_size :=
    Nat.div_pos (by omega) hbs
  have hne : (make_batches num_samples batch_size).map (fun b => b.2 - b.1) ≠ [] := by
    intro hc
    rw [hc] at hlen
    simp only [List.length_nil] at hlen
    omega
  have hrunlen := eval_samples_run_length f st stop m hm _ hne
  refine ⟨?_, ?_, ?_⟩
  · unfold evaluate_loop_samples
    rw [finalize_length, hrunlen]
  · intro i him hi
    unfold evaluate_loop_samples
    rw [finalize_getD st _ _ 0 i (by rw [hrunlen]; omega)]
    simp only [Nat.zero_add]
    rw [if_neg hi,
      eval_samples_run_getD_nonstateful f st stop m i hm hstop hi him _ hne, hlen]
  · intro i him hi
    unfold evaluate_loop_samples
    rw [finalize_getD st _ _ 0 i (by rw [hrunlen]; omega)]
    simp only [Nat.zero_add]
    rw [if_pos hi,
      eval_samples_run_getD_stateful f st stop m i hm hstop hi him _ hne, hlen]

/-- Witness for C2: 5 samples, batch size 3 — two batches of sizes 3 and 2 —
with a single non-stateful metric returning 10 on the first batch and 20 on
the second: the result is the weighted average `(10*3 + 20*2) / 5 = 14`. -/
theorem evaluate_loop_sample_based_witness :
    ((evaluate_loop_samples (fun j => [if j = 0 then 10 else 20]) [] 5 3
        (fun _ => false)).length = 1
      ∧ (∀ i, i < 1 → i ∉ ([] : List Nat) →
          (evaluate_loop_samples (fun j => [if j = 0 then 10 else 20]) [] 5 3
              (fun _ => false)).getD i 0
            = (∑ j ∈ Finset.range ((5 + 3 - 1) / 3),
                ((fun j => [if j = 0 then (10:ℚ) else 20]) j).getD i 0
                  * ((((make_batches 5 3).map (fun b => b.2 - b.1)).getD j 0 : Nat) : ℚ))
              / ((5 : Nat) : ℚ))
      ∧ (∀ i, i < 1 → i ∈ ([] : List Nat) →
          (evaluate_loop_samples (fun j => [if j = 0 then 10 else 20]) [] 5 3
              (fun _ => false)).getD i 0
            = ((fun j => [if j = 0 then (10:ℚ) else 20]) ((5 + 3 - 1) / 3 - 1)).getD i 0))
      ∧ evaluate_loop_samples (fun j => [if j = 0 then 10 else 20]) [] 5 3
          (fun _ => false) = [14] :=
  ⟨evaluate_loop_sample_based (fun j => [if j = 0 then 10 else 20]) [] 5 3 1
      (fun _ => false) (by decide) (by decide) (fun t => by simp) (fun _ => rfl), by
    norm_num [evaluate_loop_samples, eval_samples_go, accum_samples, finalize,
      make_batches, List.range_succ]⟩

/-- Python truthiness of an optional integer argument (`if validation_steps:`):
`None` and `0` are falsy. -/
def truthy : Option Nat → Bool
  | none => false
  | some v => v != 0

/-- The error raised when `validation_steps` is passed without
`steps_per_epoch`. -/
def valStepsMsg : String :=
  "Can only use `validation_steps` when doing step-wise training, i.e. `steps_per_epoch` must be set."

/-- The error raised when step-wise training validates without an explicit
`validation_steps`. -/
def mustSpecifyMsg : String :=
  "Must specify `validation_steps` to perform validation when doing step-wise training."

/-- The argument validation at the head of `fit_loop`, before any callback or
batch runs: `do_validation` comes from a non-empty `val_ins`; a truthy
`validation_steps` forces validation and requires `steps_per_epoch`; otherwise
validating with a truthy `steps_per_epoch` requires `validation_steps`.
Returns the resulting `do_validation` flag. -/
def fit_config_check (val_ins_nonempty : Bool)
    (steps_per_epoch validation_steps : Option Nat) : Except String Bool :=
  if truthy validation_steps then
    if steps_per_epoch = none then .error valStepsMsg else .ok true
  else if val_ins_nonempty && truthy steps_per_epoch then .error mustSpecifyMsg
  else .ok val_ins_nonempty

/-- Observable events of one `fit_loop` run: the train-step invocation of a
batch, its batch-end notification, and the epoch begin / end notifications. -/
inductive FitEvent where
  | epochBegin (e : Nat)
  | trainStep (e b : Nat)
  | batchEnd (e b : Nat)
  | epochEnd (e : Nat)
deriving DecidableEq

/-- The batch loop of one epoch of `fit_loop`, with `r` batches left and next
batch index `b`: each iteration invokes the train step, notifies batch-end,
and breaks if the observer set `stop_training` in that notification
(`stopAt e b = true`). Returns the events and the stop flag's final value. -/
def fit_batches (stopAt : Nat → Nat → Bool) (e : Nat) :
    Nat → Nat → List FitEvent × Bool
  | 0, _ => ([], false)
  | r + 1, b =>
    if stopAt e b then ([FitEvent.trainStep e b, FitEvent.batchEnd e b], true)
    else
      let rest := fit_batches stopAt e r (b + 1)
      (FitEvent.trainStep e b :: FitEvent.batchEnd e b :: rest.1, rest.2)

/-- The epoch loop of `fit_loop` (`for epoch in range(initial_epoch, epochs)`)
with `r` epochs left and `B` batches per epoch: each epoch notifies
epoch-begin, runs its batch loop, notifies epoch-end, and breaks out of the
epoch loop if `stop_training` was set. -/
def fit_epochs (stopAt : Nat → Nat → Bool) (B : Nat) : Nat → Nat → List FitEvent
  | 0, _ => []
  | r + 1, e =>
    let bres := fit_batches stopAt e B 0
    let evs := FitEvent.epochBegin e :: bres.1 ++ [FitEvent.epochEnd e]
    if bres.2 then evs else evs ++ fit_epochs stopAt B r (e + 1)

/-- `fit_loop`: validate the argument combination first — before any callback
configuration, batch, or other side effect — then run the epochs
`[initial_epoch, epochs)` with `B` batches each, producing the event trace.
A configuration error therefore carries no trace at all. -/
def fit_loop (val_ins_nonempty : Bool)
    (steps_per_epoch validation_steps : Option Nat)
    (stopAt : Nat → Nat → Bool) (B initial_epoch epochs : Nat) :
    Except String (List FitEvent) :=
  match fit_config_check val_ins_nonempty steps_per_epoch validation_steps with
  | .error msg => .error msg
  | .ok _ => .ok (fit_epochs stopAt B (epochs - initial_epoch) initial_epoch)

/-- C4: an invalid combination of step-based training and validation step
count makes `fit_loop` raise a configuration error before any batch executes
(the error result carries no event trace): a truthy `validation_steps`
without `steps_per_epoch` raises, and a truthy `steps_per_epoch` with
validation data but without `validation_steps` raises. -/
theorem fit_loop_config_errors (val_ins_nonempty : Bool)
    (steps_per_epoch validation_steps : Option Nat)
    (stopAt : Nat → Nat → Bool) (B initial_epoch epochs : Nat) :
    (truthy validation_steps = true → steps_per_epoch = none →
      fit_loop val_ins_nonempty steps_per_epoch validation_steps stopAt
          B initial_epoch epochs = .error valStepsMsg)
      ∧ (val_ins_nonempty = true → truthy steps_per_epoch = true →
          validation_steps = none →
          fit_loop val_ins_nonempty steps_per_epoch validation_steps stopAt
              B initial_epoch epochs = .error mustSpecifyMsg) := by
  constructor
  · intro hvs hspe
    unfold fit_loop fit_config_check
    rw [hvs, hspe]
    rfl
  · intro hval hspe hvs
    unfold fit_loop fit_config_check
    rw [hvs, hval, hspe]
    rfl

/-- Witness for C4: `steps_per_epoch = 5` with validation data and no
`validation_steps` errors; `validation_steps = 2` without `steps_per_epoch`
errors. -/
theorem fit_loop_config_errors_witness :
    fit_loop true (some 5) none (fun _ _ => false) 3 0 2 = .error mustSpecifyMsg
      ∧ fit_loop false none (some 2) (fun _ _ => false) 3 0 2 = .error valStepsMsg :=
  ⟨(fit_loop_config_errors true (some 5) none (fun _ _ => false) 3 0 2).2
      rfl (by decide) rfl,
    (fit_loop_config_errors false none (some 2) (fun _ _ => false) 3 0 2).1
      (by decide) rfl⟩

theorem fit_batches_trainStep_epoch (stopAt : Nat → Nat → Bool) (e : Nat) :
    ∀ (r b0 e2 b2 : Nat),
      FitEvent.trainStep e2 b2 ∈ (fit_batches stopAt e r b0).1 → e2 = e := by
  intro r
  induction r with
  | zero =>
    intro b0 e2 b2 h
    cases h
  | succ r ih =>
    intro b0 e2 b2 h
    simp only [fit_batches] at h
    by_cases hs : stopAt e b0
    · rw [if_pos hs] at h
      simp only [List.mem_cons, List.not_mem_nil, or_false] at h
      rcases h with h | h
      · injection h with h1 h2
      · exact FitEvent.noConfusion h
    · rw [if_neg hs] at h
      simp only [List.mem_cons] at h
      rcases h with h | h | h
      · injection h with h1 h2
      · exact FitEvent.noConfusion h
      · exact ih (b0 + 1) e2 b2 h

theorem fit_batches_trainStep_le_stop (stopAt : Nat → Nat → Bool) (e b : Nat)
    (htrue : stopAt e b = true) :
    ∀ (r b0 : Nat), b0 ≤ b → ∀ b2,
      FitEvent.trainStep e b2 ∈ (fit_batches stopAt e r b0).1 → b2 ≤ b := by
  intro r
  induction r with
  | zero =>
    intro b0 _ b2 h
    cases h
  | succ r ih =>
    intro b0 hb0 b2 h
    simp only [fit_batches] at h
    by_cases hs : stopAt e b0
    · rw [if_pos hs] at h
      simp only [List.mem_cons, List.not_mem_nil, or_false] at h
      rcases h with h | h
      · injection h with h1 h2
        omega
      · exact FitEvent.noConfusion h
    · rw [if_neg hs] at h
      have hb0b : b0 ≠ b := by
        intro hc
        rw [hc] at hs
        exact hs htrue
      simp only [List.mem_cons] at h
      rcases h with h | h | h
      · injection h with h1 h2
        omega
      · exact FitEvent.noConfusion h
      · exact ih (b0 + 1) (by omega) b2 h

theorem fit_batches_stopped (stopAt : Nat → Nat → Bool) (e b : Nat)
    (htrue : stopAt e b = true) :
    ∀ (r b0 : Nat), b0 ≤ b → b < b0 + r → (fit_batches stopAt e r b0).2 = true := by
  intro r
  induction r with
  | zero =>
    intro b0 hb0 hbr
    omega
  | succ r ih =>
    intro b0 hb0 hbr
    simp only [fit_batches]
    by_cases hs : stopAt e b0
    · rw [if_pos hs]
    · rw [if_neg hs]
      have hb0b : b0 ≠ b := by
        intro hc
        rw [hc] at hs
        exact hs htrue
      exact ih (b0 + 1) (by omega) (by omega)

theorem fit_epochs_trainStep_bound (stopAt : Nat → Nat → Bool) (B e b : Nat)
    (htrue : stopAt e b = true) (hbB : b < B) :
    ∀ (r e0 : Nat), e0 ≤ e → ∀ e2 b2,
      FitEvent.trainStep e2 b2 ∈ fit_epochs stopAt B r e0 →
      e2 ≤ e ∧ (e2 = e → b2 ≤ b) := by
  intro r
  induction r with
  | zero =>
    intro e0 _ e2 b2 h
    cases h
  | succ r ih =>
    intro e0 he0 e2 b2 h
    simp only [fit_epochs] at h
    rcases Nat.lt_or_ge e0 e with helt | hege
    · by_cases hstopped : (fit_batches stopAt e0 B 0).2
      · rw [if_pos hstopped] at h
        simp only [List.mem_cons, List.mem_append, List.not_mem_nil, or_false] at h
        rcases h with (h | h) | h
        · exact FitEvent.noConfusion h
        · have hep := fit_batches_trainStep_epoch stopAt e0 B 0 e2 b2 h
          exact ⟨by omega, fun hc => by omega⟩
        · exact FitEvent.noConfusion h
      · rw [if_neg hstopped] at h
        simp only [List.mem_cons, List.mem_append, List.not_mem_nil, or_false] at h
        rcases h with ((h | h) | h) | h
        · exact FitEvent.noConfusion h
        · have hep := fit_batches_trainStep_epoch stopAt e0 B 0 e2 b2 h
          exact ⟨by omega, fun hc => by omega⟩
        · exact FitEvent.noConfusion h
        · exact ih (e0 + 1) (by omega) e2 b2 h
    · have he0e : e0 = e := by omega
      subst he0e
      have hstopped : (fit_batches stopAt e0 B 0).2 = true :=
        fit_batches_stopped stopAt e0 b htrue B 0 (by omega) (by omega)
      rw [if_pos hstopped] at h
      simp only [List.mem_cons, List.mem_append, List.not_mem_nil, or_false] at h
      rcases h with (h | h) | h
      · exact FitEvent.noConfusion h
      · have hep := fit_batches_trainStep_epoch stopAt e0 B 0 e2 b2 h
        refine ⟨by omega, fun _ => ?_⟩
        rw [hep] at h
        exact fit_batches_trainStep_le_stop stopAt e0 b htrue B 0 (by omega) b2 h
      · exact FitEvent.noConfusion h

theorem fit_epochs_epochEnd_of_trainStep (stopAt : Nat → Nat → Bool) (B : Nat) :
    ∀ (r e0 e2 b2 : Nat),
      FitEvent.trainStep e2 b2 ∈ fit_epochs stopAt B r e0 →
      FitEvent.epochEnd e2 ∈ fit_epochs stopAt B r e0 := by
  intro r
  induction r with
  | zero =>
    intro e0 e2 b2 h
    cases h
  | succ r ih =>
    intro e0 e2 b2 h
    simp only [fit_epochs] at h ⊢
    by_cases hstopped : (fit_batches stopAt e0 B 0).2
    · rw [if_pos hstopped] at h ⊢
      rcases List.mem_cons.mp h with h | h
      · exact FitEvent.noConfusion h
      rcases List.mem_append.mp h with h | h
      · have hep := fit_batches_trainStep_epoch stopAt e0 B 0 e2 b2 h
        subst hep
        exact List.mem_cons_of_mem _ (List.mem_append.mpr (Or.inr (by simp)))
      · rcases List.mem_cons.mp h with h | h
        · exact FitEvent.noConfusion h
        · cases h
    · rw [if_neg hstopped] at h ⊢
      simp only [List.mem_cons, List.mem_append, List.not_mem_nil, or_false] at h
      rcases h with ((h | h) | h) | h
      · exact FitEvent.noConfusion h
      · have hep := fit_batches_trainStep_epoch stopAt e0 B 0 e2 b2 h
        subst hep
        refine List.mem_append.mpr (Or.inl ?_)
        exact List.mem_cons_of_mem _ (List.mem_append.mpr (Or.inr (by simp)))
      · exact FitEvent.noConfusion h
      · exact List.mem_append.mpr (Or.inr (ih (e0 + 1) e2 b2 h))

/-- C6: if the observer sets `stop_training` inside the batch-end
notification of batch `b` of epoch `e` of a fit run (`b < B`,
`initial_epoch ≤ e < epochs`), then no train step of a later batch of epoch
`e` executes, no train step of any later epoch executes, and the epoch-end
notification still fires for every epoch that ran a train step. -/
theorem fit_loop_stop_flag_halts (stopAt : Nat → Nat → Bool)
    (B initial_epoch epochs e b : Nat)
    (htrue : stopAt e b = true) (hbB : b < B)
    (hei : initial_epoch ≤ e) (heE : e < epochs) :
    (∀ b2, b < b2 →
        FitEvent.trainStep e b2
          ∉ fit_epochs stopAt B (epochs - initial_epoch) initial_epoch)
      ∧ (∀ e2 b2, e < e2 →
          FitEvent.trainStep e2 b2
            ∉ fit_epochs stopAt B (epochs - initial_epoch) initial_epoch)
      ∧ (∀ e2 b2,
          FitEvent.trainStep e2 b2
              ∈ fit_epochs stopAt B (epochs - initial_epoch) initial_epoch →
            FitEvent.epochEnd e2
              ∈ fit_epochs stopAt B (epochs - initial_epoch) initial_epoch) := by
  refine ⟨?_, ?_, ?_⟩
  · intro b2 hb2 h
    have := (fit_epochs_trainStep_bound stopAt B e b htrue hbB
      (epochs - initial_epoch) initial_epoch hei e b2 h).2 rfl
    omega
  · intro e2 b2 he2 h
    have := (fit_epochs_trainStep_bound stopAt B e b htrue hbB
      (epochs - initial_epoch) initial_epoch hei e2 b2 h).1
    omega
  · intro e2 b2 h
    exact fit_epochs_epochEnd_of_trainStep stopAt B (epochs - initial_epoch)
      initial_epoch e2 b2 h

/-- Witness for C6: 2 epochs of 3 batches, stop flag set at batch-end of
batch 1 of epoch 0. -/
theorem fit_loop_stop_flag_halts_witness :
    (∀ b2, 1 < b2 →
        FitEvent.trainStep 0 b2
          ∉ fit_epochs (fun e b => decide (e = 0 ∧ b = 1)) 3 (2 - 0) 0)
      ∧ (∀ e2 b2, 0 < e2 →
          FitEvent.trainStep e2 b2
            ∉ fit_epochs (fun e b => decide (e = 0 ∧ b = 1)) 3 (2 - 0) 0)
      ∧ (∀ e2 b2,
          FitEvent.trainStep e2 b2
              ∈ fit_epochs (fun e b => decide (e = 0 ∧ b = 1)) 3 (2 - 0) 0 →
            FitEvent.epochEnd e2
              ∈ fit_epochs (fun e b => decide (e = 0 ∧ b = 1)) 3 (2 - 0) 0) :=
  fit_loop_stop_flag_halts (fun e b => decide (e = 0 ∧ b = 1)) 3 0 2 0 1
    (by decide) (by decide) (by decide) (by decide)

/-- A row of one output array: the trailing dimensions of a numpy array,
flattened to a list of rationals. -/
abbrev Row := List ℚ

/-- Numpy slice assignment `arr[start : start + len(vals)] = vals`. -/
def write_slice (arr : List Row) (start : Nat) (vals : List Row) : List Row :=
  arr.take start ++ (vals ++ arr.drop (start + vals.length))

/-- `np.zeros((num_samples,) + batch_out.shape[1:])`: `num_samples` rows, each
of the row width of the batch output. -/
def zerosLike (num_samples : Nat) (bo : List Row) : List Row :=
  List.replicate num_samples (List.replicate (bo.headD []).length 0)

/-- The slice-assignment pass of `predict_loop`'s sample-based branch
(`for i, batch_out in enumerate(batch_outs): outs[i][start:start+size] =
batch_out`). -/
def write_outs (start : Nat) : List (List Row) → List (List Row) → List (List Row)
  | os, [] => os
  | [], _ => []
  | o :: os, bo :: bos => write_slice o start bo :: write_outs start os bos

/-- The sample-based loop of `predict_loop` with `r` of the generator's
batches left and next batch index `bi`: `pf bi` is what
`model.predict_function(batch_ins)` returns on batch `bi` (one list of rows
per model output); on batch 0 the result arrays are pre-allocated as zeros of
shape `(num_samples,) + batch_out.shape[1:]`; each batch is written at
`start = batch_index * batch_size`; after each batch-end notification the
loop breaks if the observer set `stop_predicting`. -/
def predict_samples_go (pf : Nat → List (List Row)) (stop : Nat → Bool)
    (num_samples batch_size : Nat) : Nat → Nat → List (List Row) → List (List Row)
  | 0, _, outs => outs
  | r + 1, bi, outs =>
    let bouts := pf bi
    let outs2 := write_outs (bi * batch_size)
      (if bi = 0 then bouts.map (zerosLike num_samples) else outs) bouts
    if stop bi then outs2
    else predict_samples_go pf stop num_samples batch_size r (bi + 1) outs2

/-- `predict_loop` with `steps = None`: run the sample-based loop over all
batches produced by `get_batch_generator`. -/
def predict_loop_samples (pf : Nat → List (List Row)) (stop : Nat → Bool)
    (num_samples batch_size : Nat) : List (List Row) :=
  predict_samples_go pf stop num_samples batch_size
    (make_batches num_samples batch_size).length 0 []

theorem ceil_div_mul_ge (n bs : Nat) (hbs : 0 < bs) : n ≤ (n + bs - 1) / bs * bs := by
  have hdm := Nat.div_add_mod (n + bs - 1) bs
  have hlt : (n + bs - 1) % bs < bs := Nat.mod_lt _ hbs
  have hcomm : (n + bs - 1) / bs * bs = bs * ((n + bs - 1) / bs) := Nat.mul_comm _ _
  omega

theorem ceil_div_pred_mul_lt (n bs : Nat) (hbs : 0 < bs) (hn : 0 < n) :
    ((n + bs - 1) / bs - 1) * bs < n := by
  have hdm := Nat.div_add_mod (n + bs - 1) bs
  have hlt : (n + bs - 1) % bs < bs := Nat.mod_lt _ hbs
  have hcomm : ((n + bs - 1) / bs) * bs = bs * ((n + bs - 1) / bs) := Nat.mul_comm _ _
  have hsub : ((n + bs - 1) / bs - 1) * bs = ((n + bs - 1) / bs) * bs - bs := by
    rw [Nat.sub_mul, Nat.one_mul]
  omega

theorem write_slice_length (arr vals : List Row) (start : Nat)
    (h : start + vals.length ≤ arr.length) :
    (write_slice arr start vals).length = arr.length := by
  simp only [write_slice, List.length_append, List.length_take, List.length_drop]
  omega

theorem write_slice_getD_lt (arr vals : List Row) (start j : Nat)
    (hj : j < start) (hs : start ≤ arr.length) :
    (write_slice arr start vals).getD j [] = arr.getD j [] := by
  unfold write_slice
  rw [List.getD_eq_getElem?_getD, List.getD_eq_getElem?_getD]
  rw [List.getElem?_append_left (by rw [List.length_take]; omega)]
  rw [List.getElem?_take_of_lt hj]

theorem write_slice_getD_mid (arr vals : List Row) (start j : Nat)
    (hj1 : start ≤ j) (hj2 : j < start + vals.length)
    (hlen : start + vals.length ≤ arr.length) :
    (write_slice arr start vals).getD j [] = vals.getD (j - start) [] := by
  unfold write_slice
  rw [List.getD_eq_getElem?_getD, List.getD_eq_getElem?_getD]
  have htl : (arr.take start).length = start := by
    rw [List.length_take]
    omega
  rw [List.getElem?_append_right (by omega)]
  rw [htl, List.getElem?_append_left (by omega)]

theorem write_outs_length (start : Nat) :
    ∀ (os bos : List (List Row)), (write_outs start os bos).length = os.length := by
  intro os
  induction os with
  | nil =>
    intro bos
    cases bos <;> rfl
  | cons o os ih =>
    intro bos
    cases bos with
    | nil => rfl
    | cons bo bos =>
      simp only [write_outs, List.length_cons]
      rw [ih bos]

theorem write_outs_getD (start : Nat) :
    ∀ (os bos : List (List Row)) (i : Nat), i < os.length → i < bos.length →
      (write_outs start os bos).getD i []
        = write_slice (os.getD i []) start (bos.getD i []) := by
  intro os
  induction os with
  | nil =>
    intro bos i hi _
    cases hi
  | cons o os ih =>
    intro bos i hi hib
    cases bos with
    | nil => cases hib
    | cons bo bos =>
      cases i with
      | zero => simp [write_outs]
      | succ i =>
        simp only [write_outs, List.getD_cons_succ]
        exact ih bos i (by simpa using hi) (by simpa using hib)

theorem getD_map_zerosLike (n : Nat) (l : List (List Row)) (i : Nat) (hi : i < l.length) :
    (l.map (zerosLike n)).getD i [] = zerosLike n (l.getD i []) := by
  rw [List.getD_eq_getElem?_getD, List.getElem?_map, List.getElem?_eq_getElem hi]
  rw [List.getD_eq_getElem l [] hi]
  rfl

theorem zerosLike_length (n : Nat) (bo : List Row) : (zerosLike n bo).length = n := by
  simp [zerosLike]

theorem predict_go_length (pf : Nat → List (List Row)) (stop : Nat → Bool)
    (n bs p : Nat) (hp : ∀ t, (pf t).length = p) :
    ∀ (r bi : Nat) (outs : List (List Row)),
      (outs.length = p ∨ (bi = 0 ∧ 0 < r)) →
      (predict_samples_go pf stop n bs r bi outs).length = p := by
  intro r
  induction r with
  | zero =>
    intro bi outs h
    rcases h with h | ⟨_, h⟩
    · exact h
    · omega
  | succ r ih =>
    intro bi outs h
    simp only [predict_samples_go]
    have houts1 : (if bi = 0 then (pf bi).map (zerosLike n) else outs).length = p := by
      by_cases hs : bi = 0
      · simp [hs, hp]
      · rcases h with h | ⟨h0, _⟩
        · simp [hs, h]
        · exact absurd h0 hs
    have houts2 : (write_outs (bi * bs)
        (if bi = 0 then (pf bi).map (zerosLike n) else outs) (pf bi)).length = p := by
      rw [write_outs_length]
      exact houts1
    cases hstop : stop bi with
    | true => simpa [hstop] using houts2
    | false =>
      simp only [hstop, Bool.false_eq_true, if_false]
      exact ih (bi + 1) _ (Or.inl houts2)

theorem predict_go_invariant (pf : Nat → List (List Row)) (stop : Nat → Bool)
    (n bs p i : Nat) (hbs : 0 < bs) (hn : 0 < n)
    (hp : ∀ t, (pf t).length = p) (hip : i < p)
    (hsize : ∀ t, ((pf t).getD i []).length = min n ((t + 1) * bs) - t * bs)
    (hstop : ∀ t, stop t = false) :
    ∀ (r bi : Nat) (outs : List (List Row)),
      1 ≤ bi → bi + r = (n + bs - 1) / bs → outs.length = p →
      (outs.getD i []).length = n →
      (∀ j, j < n → j < bi * bs →
        (outs.getD i []).getD j [] = ((pf (j / bs)).getD i []).getD (j % bs) []) →
      ((predict_samples_go pf stop n bs r bi outs).getD i []).length = n
        ∧ ∀ j, j < n →
            ((predict_samples_go pf stop n bs r bi outs).getD i []).getD j []
              = ((pf (j / bs)).getD i []).getD (j % bs) [] := by
  intro r
  induction r with
  | zero =>
    intro bi outs _ hbiB houts hlen hcov
    refine ⟨hlen, ?_⟩
    intro j hj
    apply hcov j hj
    have hceil : n ≤ (n + bs - 1) / bs * bs := ceil_div_mul_ge n bs hbs
    have hbieq : bi = (n + bs - 1) / bs := by omega
    rw [hbieq]
    omega
  | succ r ih =>
    intro bi outs hbi hbiB houts hlen hcov
    simp only [predict_samples_go]
    have hs0 : ¬(bi = 0) := by omega
    simp only [hs0, if_false, hstop bi, Bool.false_eq_true]
    have hbilt : bi < (n + bs - 1) / bs := by omega
    have hwidth : ((pf bi).getD i []).length = min n ((bi + 1) * bs) - bi * bs :=
      hsize bi
    have hbiub : bi * bs ≤ ((n + bs - 1) / bs - 1) * bs :=
      Nat.mul_le_mul_right bs (by omega)
    have hbin : bi * bs < n := by
      have hpred : ((n + bs - 1) / bs - 1) * bs < n := ceil_div_pred_mul_lt n bs hbs hn
      omega
    have hnext : bi * bs + ((pf bi).getD i []).length ≤ n := by
      rw [hwidth]
      have hmul : (bi + 1) * bs = bi * bs + bs := by
        rw [Nat.add_mul, Nat.one_mul]
      omega
    have houts2proj : (write_outs (bi * bs) outs (pf bi)).getD i []
        = write_slice (outs.getD i []) (bi * bs) ((pf bi).getD i []) :=
      write_outs_getD (bi * bs) outs (pf bi) i (by omega) (by rw [hp]; omega)
    have houts2len : (write_outs (bi * bs) outs (pf bi)).length = p := by
      rw [write_outs_length]
      exact houts
    have hlen2 : ((write_outs (bi * bs) outs (pf bi)).getD i []).length = n := by
      rw [houts2proj, write_slice_length _ _ _ (by omega)]
      exact hlen
    refine ih (bi + 1) _ (by omega) (by omega) houts2len hlen2 ?_
    intro j hj hjlt
    rw [houts2proj]
    have hmul : (bi + 1) * bs = bi * bs + bs := by
      rw [Nat.add_mul, Nat.one_mul]
    by_cases hjcase : j < bi * bs
    · rw [write_slice_getD_lt _ _ _ _ hjcase (by omega)]
      exact hcov j hj hjcase
    · have hjin : bi * bs ≤ j ∧ j < bi * bs + ((pf bi).getD i []).length := by
        rw [hwidth]
        omega
      rw [write_slice_getD_mid _ _ _ _ hjin.1 hjin.2 (by omega)]
      have hdiv : j / bs = bi := by
        apply Nat.div_eq_of_lt_le
        · omega
        · rw [hmul] at hjlt ⊢
          omega
      have hmod : j % bs = j - bi * bs := by
        have hdm := Nat.div_add_mod j bs
        have hcomm : bs * (j / bs) = j / bs * bs := Nat.mul_comm _ _
        rw [hdiv] at hdm hcomm
        omega
      rw [hdiv, hmod]

/-- C5: a sample-based predict run (`steps = None`, `0 < batch_size`,
`0 < num_samples`) that is never stopped early returns one array per model
output, pre-allocated to `num_samples` rows, in which the rows of batch `bi`
were written at the slice starting at `bi * batch_size`: row `j` of output `i`
is exactly row `j % batch_size` of what the predict step returned for output
`i` on batch `j / batch_size` — every row of the pre-allocated zero array is
overwritten by a predicted row. -/
theorem predict_loop_sample_preallocates_and_writes (pf : Nat → List (List Row))
    (stop : Nat → Bool) (num_samples batch_size p : Nat)
    (hbs : 0 < batch_size) (hn : 0 < num_samples)
    (hp : ∀ t, (pf t).length = p)
    (hsize : ∀ t i, i < p → ((pf t).getD i []).length
      = min num_samples ((t + 1) * batch_size) - t * batch_size)
    (hstop : ∀ t, stop t = false) :
    (predict_loop_samples pf stop num_samples batch_size).length = p
      ∧ ∀ i, i < p →
          ((predict_loop_samples pf stop num_samples batch_size).getD i []).length
              = num_samples
            ∧ ∀ j, j < num_samples →
                ((predict_loop_samples pf stop num_samples batch_size).getD i []).getD j []
                  = ((pf (j / batch_size)).getD i []).getD (j % batch_size) [] := by
  have hB : 0 < (make_batches num_samples batch_size).length := by
    rw [make_batches_length]
    exact Nat.div_pos (by omega) hbs
  constructor
  · unfold predict_loop_samples
    exact predict_go_length pf stop num_samples batch_size p hp _ 0 []
      (Or.inr ⟨rfl, hB⟩)
  · intro i hip
    have hmul : (0 + 1) * batch_size = batch_size := by
      rw [Nat.add_mul, Nat.one_mul, Nat.zero_mul, Nat.zero_add]
    cases hBv : (make_batches num_samples batch_size).length with
    | zero => omega
    | succ B2 =>
      have hBeq : B2 + 1 = (num_samples + batch_size - 1) / batch_size := by
        rw [← make_batches_length num_samples batch_size, hBv]
      have hstep : predict_samples_go pf stop num_samples batch_size (B2 + 1) 0 []
          = predict_samples_go pf stop num_samples batch_size B2 1
              (write_outs 0 ((pf 0).map (zerosLike num_samples)) (pf 0)) := by
        simp [predict_samples_go, hstop 0]
      have houts1len : ((pf 0).map (zerosLike num_samples)).length = p := by
        rw [List.length_map, hp]
      have houtsproj : (write_outs 0 ((pf 0).map (zerosLike num_samples)) (pf 0)).getD i []
          = write_slice (zerosLike num_samples ((pf 0).getD i [])) 0 ((pf 0).getD i []) := by
        rw [write_outs_getD 0 _ _ i (by rw [houts1len]; omega) (by rw [hp]; omega)]
        rw [getD_map_zerosLike num_samples (pf 0) i (by rw [hp]; omega)]
      have hw0 : ((pf 0).getD i []).length = min num_samples batch_size := by
        rw [hsize 0 i hip, hmul, Nat.zero_mul]
        omega
      have hlen2 : ((write_outs 0 ((pf 0).map (zerosLike num_samples)) (pf 0)).getD i []).length
          = num_samples := by
        rw [houtsproj, write_slice_length _ _ _ (by rw [hw0, zerosLike_length]; omega)]
        exact zerosLike_length _ _
      have hcov : ∀ j, j < num_samples → j < 1 * batch_size →
          ((write_outs 0 ((pf 0).map (zerosLike num_samples)) (pf 0)).getD i []).getD j []
            = ((pf (j / batch_size)).getD i []).getD (j % batch_size) [] := by
        intro j hj hjb
        rw [Nat.one_mul] at hjb
        rw [houtsproj]
        rw [write_slice_getD_mid _ _ _ _ (by omega) (by rw [hw0]; omega)
          (by rw [hw0, zerosLike_length]; omega)]
        have hdiv : j / batch_size = 0 := Nat.div_eq_of_lt hjb
        have hmod : j % batch_size = j := Nat.mod_eq_of_lt hjb
        rw [hdiv, hmod, Nat.sub_zero]
      have hinv := predict_go_invariant pf stop num_samples batch_size p i hbs hn hp hip
        (fun t => hsize t i hip) hstop B2 1
        (write_outs 0 ((pf 0).map (zerosLike num_samples)) (pf 0))
        (by omega) (by omega)
        (by rw [write_outs_length]; exact houts1len) hlen2 hcov
      unfold predict_loop_samples
      rw [hBv, hstep]
      exact hinv

/-- Witness for C5: 10 samples, batch size 4, one output whose predict step
returns rows `[1, 2]` (shape `(batch, 2)`): the final array has 10 rows of
width 2 and no row is left at the zero default. -/
theorem predict_loop_sample_preallocates_and_writes_witness :
    ((predict_loop_samples
        (fun t => [List.replicate (min 10 ((t + 1) * 4) - t * 4) [1, 2]])
        (fun _ => false) 10 4).length = 1
      ∧ ∀ i, i < 1 →
          ((predict_loop_samples
              (fun t => [List.replicate (min 10 ((t + 1) * 4) - t * 4) [1, 2]])
              (fun _ => false) 10 4).getD i []).length = 10
            ∧ ∀ j, j < 10 →
                ((predict_loop_samples
                    (fun t => [List.replicate (min 10 ((t + 1) * 4) - t * 4) [1, 2]])
                    (fun _ => false) 10 4).getD i []).getD j []
                  = (((fun t => [List.replicate (min 10 ((t + 1) * 4) - t * 4)
                        ([1, 2] : Row)]) (j / 4)).getD i []).getD (j % 4) [])
      ∧ predict_loop_samples
          (fun t => [List.replicate (min 10 ((t + 1) * 4) - t * 4) [1, 2]])
          (fun _ => false) 10 4 = [List.replicate 10 [1, 2]] :=
  ⟨predict_loop_sample_preallocates_and_writes
      (fun t => [List.replicate (min 10 ((t + 1) * 4) - t * 4) [1, 2]])
      (fun _ => false) 10 4 1 (by decide) (by decide) (fun _ => rfl)
      (fun t i hi => by
        interval_cases i
        simp)
      (fun _ => rfl), by rfl⟩

end TrainingArrays
